import Mathlib

/-!
Verification of the pending-change accumulator of the watchman repository
(src/PendingCollection.cpp): a path-keyed index plus an intrusive LIFO list
of pending filesystem notifications, with consolidation, containment
obsoletion, child pruning, draining and a producer/consumer wake protocol.

The radix tree (art_tree), the flag constants, the slash test and the cookie
predicate are declared elsewhere in the repository; they are modelled here
from the specification (sections 3, 4.1 and 6), and the cookie predicate is a
parameter of every operation that consults it.
-/

set_option maxHeartbeats 1000000

namespace Watchman

/-- Paths are byte strings; bytes are modelled as characters. -/
abbrev Path := List Char

/-- Modelled from the spec: the RECURSIVE pending flag bit; the numeric bit
values come from a header that is not under src/, only their distinctness
matters. -/
def W_PENDING_RECURSIVE : Nat := 1

/-- Modelled from the spec: the VIA_NOTIFY pending flag bit. -/
def W_PENDING_VIA_NOTIFY : Nat := 2

/-- Modelled from the spec: the CRAWL_ONLY pending flag bit. -/
def W_PENDING_CRAWL_ONLY : Nat := 4

/-- Modelled from the spec: the IS_DESYNCED pending flag bit. -/
def W_PENDING_IS_DESYNCED : Nat := 8

/-- Modelled from the spec: the path separator test (is_slash lives in a
header that is not under src/); a separator is a forward or backward slash. -/
def is_slash (c : Char) : Bool := c == '/' || c == '\\'

/-- Embedding of is_path_prefix from src/PendingCollection.cpp. The source
asserts that the first common_prefix bytes of path and other agree and
otherwise never reads other; the assertion is a precondition, not a
computation, so only the length test and the separator test remain. -/
def is_path_prefix (path : Path) ( _other : Path) ( common_prefix : Nat) :
    Bool :=
  if common_prefix > path.length then
    false
  else if common_prefix = path.length then
    true
  else
    is_slash (path.getD common_prefix ' ')

/-- Embedding of watchman_pending_fs: path, observation time and flag
bitmask. The intrusive prev/next links are modelled by the entry's position
in the collection's pending list. -/
structure watchman_pending_fs where
  path : Path
  now : Nat
  flags : Nat
  deriving DecidableEq

/-- State of a PendingCollectionBase: the intrusive pending list (head
first; next links run toward the tail), the radix tree as a key/entry
association list, and the pinged flag shared with the wrapper. -/
structure PendingCollectionBase where
  pending : List watchman_pending_fs
  tree : List (Path × watchman_pending_fs)
  pinged : Bool
  deriving DecidableEq

/-- Modelled from the spec: exact lookup in the Path Prefix Index (the radix
tree art_tree is not under src/; spec 4.1, exactLookup). -/
def treeSearch (tree : List (Path × watchman_pending_fs)) (path : Path) :
    Option watchman_pending_fs :=
  (tree.find? fun kv => kv.1 == path).map Prod.snd

/-- Modelled from the spec: longestMatchingAncestor of spec 4.1 - the entry
whose key is the longest stored key that is a byte prefix of the query. -/
def longestMatch (tree : List (Path × watchman_pending_fs)) (path : Path) :
    Option (Path × watchman_pending_fs) :=
  tree.foldl
    (fun acc kv =>
      if kv.1.isPrefixOf path then
        match acc with
        | none => some kv
        | some best => if best.1.length < kv.1.length then some kv else acc
      else acc)
    none

/-- Embedding of unlinkItem: removing an entry from the doubly linked
pending list is removing it from the sequence of live entries. -/
def unlinkItem (pending : List watchman_pending_fs) (key : Path) :
    List watchman_pending_fs :=
  pending.filter fun e => !(e.path == key)

/-- Modelled from the spec: erase of spec 4.1, removing one key from the
Index. -/
def treeErase (tree : List (Path × watchman_pending_fs)) (key : Path) :
    List (Path × watchman_pending_fs) :=
  tree.filter fun kv => !(kv.1 == key)

/-- The per-entry test of the pruning callback in
maybePruneObsoletedChildren: the scan visits keys having path as a byte
prefix (iterPrefix), and the callback removes an entry iff its flags lack
CRAWL_ONLY, its key is strictly longer than path, the boundary check holds
at the length of path, and its path is not possibly a cookie. -/
def shouldPruneChild (isCookie : Path → Bool) (path key : Path)
    (p : watchman_pending_fs) : Bool :=
  path.isPrefixOf key && ((p.flags &&& W_PENDING_CRAWL_ONLY) == 0) &&
    decide (path.length < key.length) &&
    is_path_prefix key path path.length && !(isCookie p.path)

/-- The deletion loop of maybePruneObsoletedChildren: each pass finds one
prunable entry, unlinks it from the list and erases it from the tree, then
restarts the scan (deletion invalidates the iteration), until a pass finds
nothing. Fuel bounds the number of passes; every productive pass removes an
entry, so fuel equal to the tree's size always suffices. -/
def pruneLoop (isCookie : Path → Bool) (path : Path) :
    Nat → List (Path × watchman_pending_fs) → List watchman_pending_fs →
    List (Path × watchman_pending_fs) × List watchman_pending_fs
  | 0, tree, pending => (tree, pending)
  | fuel + 1, tree, pending =>
    match tree.find? (fun kv => shouldPruneChild isCookie path kv.1 kv.2) with
    | none => (tree, pending)
    | some kv =>
      pruneLoop isCookie path fuel (treeErase tree kv.1) (unlinkItem pending kv.1)

/-- Embedding of PendingCollectionBase::maybePruneObsoletedChildren. -/
def maybePruneObsoletedChildren (isCookie : Path → Bool) (path : Path)
    (flags : Nat) (s : PendingCollectionBase) : PendingCollectionBase :=
  if (flags &&& (W_PENDING_RECURSIVE ||| W_PENDING_CRAWL_ONLY)) ==
      W_PENDING_RECURSIVE then
    { s with
        tree := (pruneLoop isCookie path s.tree.length s.tree s.pending).1,
        pending := (pruneLoop isCookie path s.tree.length s.tree s.pending).2 }
  else
    s

/-- Embedding of PendingCollectionBase::consolidateItem: OR the upgrade mask
of the incoming flags into the entry (the entry is shared between tree and
list, so the update is visible through both views), then maybe prune
children of the entry's path with the merged flags. -/
def consolidateItem (isCookie : Path → Bool) (p : watchman_pending_fs)
    (flags : Nat) (s : PendingCollectionBase) : PendingCollectionBase :=
  let p2 := { p with flags := p.flags |||
      (flags &&&
        (W_PENDING_CRAWL_ONLY ||| W_PENDING_RECURSIVE ||| W_PENDING_IS_DESYNCED)) }
  let s2 := { s with
      tree := s.tree.map fun kv => if kv.1 == p.path then (kv.1, p2) else kv,
      pending := s.pending.map fun e => if e.path == p.path then p2 else e }
  maybePruneObsoletedChildren isCookie p2.path p2.flags s2

/-- Embedding of PendingCollectionBase::isObsoletedByContainingDir. -/
def isObsoletedByContainingDir (isCookie : Path → Bool)
    (s : PendingCollectionBase) (path : Path) : Bool :=
  match longestMatch s.tree path with
  | none => false
  | some leaf =>
    if ((leaf.2.flags &&& W_PENDING_RECURSIVE) != 0) &&
        is_path_prefix path leaf.1 leaf.1.length then
      if isCookie path then false else true
    else
      false

/-- Embedding of linkHead: push the entry onto the head of the pending
list. -/
def linkHead (p : watchman_pending_fs) (s : PendingCollectionBase) :
    PendingCollectionBase :=
  { s with pending := p :: s.pending }

/-- Modelled from the spec: insert of spec 4.1; the core only inserts keys
that are not already present. -/
def treeInsert (key : Path) (p : watchman_pending_fs)
    (tree : List (Path × watchman_pending_fs)) :
    List (Path × watchman_pending_fs) :=
  (key, p) :: tree

/-- Embedding of PendingCollectionBase::add(path, now, flags). -/
def add (isCookie : Path → Bool) (s : PendingCollectionBase) (path : Path)
    (now : Nat) (flags : Nat) : PendingCollectionBase :=
  match treeSearch s.tree path with
  | some existing => consolidateItem isCookie existing flags s
  | none =>
    if isObsoletedByContainingDir isCookie s path then
      s
    else
      let p : watchman_pending_fs := { path := path, now := now, flags := flags }
      let s2 := maybePruneObsoletedChildren isCookie path flags s
      linkHead p { s2 with tree := treeInsert path p s2.tree }

/-- Embedding of stealItems: clear the tree and hand over the list head
chain, leaving the collection empty. -/
def stealItems (s : PendingCollectionBase) :
    List watchman_pending_fs × PendingCollectionBase :=
  (s.pending, { s with tree := [], pending := [] })

/-- Embedding of drain. -/
def drain (s : PendingCollectionBase) : PendingCollectionBase :=
  { s with pending := [], tree := [] }

/-- Embedding of ping: set the shared flag (the condition-variable broadcast
only wakes waiters and has no collection state of its own). -/
def ping (s : PendingCollectionBase) : PendingCollectionBase :=
  { s with pinged := true }

/-- Embedding of size: the tree's entry count. -/
def size (s : PendingCollectionBase) : Nat :=
  s.tree.length

/-- Embedding of checkAndResetPinged; returns the reported value and the
state after the call. -/
def checkAndResetPinged (s : PendingCollectionBase) :
    Bool × PendingCollectionBase :=
  if !s.pending.isEmpty || s.pinged then
    (true, { s with pinged := false })
  else
    (false, s)

/-- Embedding of the loop of PendingCollectionBase::append, walking the
chain stolen from the source in list order and re-applying the three-way
add logic against the target. -/
def appendChain (isCookie : Path → Bool) :
    PendingCollectionBase → List watchman_pending_fs → PendingCollectionBase
  | s, [] => s
  | s, p :: rest =>
    match treeSearch s.tree p.path with
    | some target =>
      appendChain isCookie (consolidateItem isCookie target p.flags s) rest
    | none =>
      if isObsoletedByContainingDir isCookie s p.path then
        appendChain isCookie s rest
      else
        let s2 := maybePruneObsoletedChildren isCookie p.path p.flags s
        appendChain isCookie
          (linkHead p { s2 with tree := treeInsert p.path p s2.tree }) rest

/-- Embedding of PendingCollectionBase::append: steal the source's items and
re-apply them to the target; the result pairs the target with the drained
source. -/
def append (isCookie : Path → Bool) (s src : PendingCollectionBase) :
    PendingCollectionBase × PendingCollectionBase :=
  let sp := stealItems src
  (appendChain isCookie s sp.1, sp.2)

/-- Embedding of PendingCollection::lockAndWait. The interleaving of other
threads while this caller blocks on the condition variable is modelled by
the environment function afterWait, giving the collection state observed
when the wait returns (by signal or by timeout); the first component is the
pinged out-parameter, the second tells whether the call blocked on the
condition variable at all. -/
def lockAndWait (afterWait : PendingCollectionBase → PendingCollectionBase)
    (_timeoutms : Int) (s : PendingCollectionBase) :
    Bool × Bool × PendingCollectionBase :=
  let c1 := checkAndResetPinged s
  if c1.1 then
    (true, false, c1.2)
  else
    let c2 := checkAndResetPinged (afterWait c1.2)
    (c2.1, true, c2.2)

/-- The structural invariant of spec section 3: the tree and the list hold
exactly the same entries, every tree row is keyed by its own entry's path,
and keys are unique. In this embedding the tree rows and the list are
aligned pointwise, which implies the set equality of the two views. -/
def GoodState (s : PendingCollectionBase) : Prop :=
  s.tree.map Prod.snd = s.pending ∧
    (∀ kv ∈ s.tree, kv.1 = kv.2.path) ∧ (s.tree.map Prod.fst).Nodup

/-- Removing an actual member that fails the filter makes the list strictly
shorter. -/
theorem length_filter_lt_of_mem {α : Type} {p : α → Bool} :
    ∀ {l : List α} {a : α}, a ∈ l → p a = false →
      (l.filter p).length < l.length := by
  intro l
  induction l with
  | nil => intro a ha _; cases ha
  | cons b rest ih =>
    intro a ha hpa
    rcases List.mem_cons.mp ha with h | h
    · subst h
      rw [List.filter_cons, if_neg (by simp [hpa])]
      exact Nat.lt_succ_of_le (List.length_filter_le _ _)
    · rw [List.filter_cons]
      by_cases hb : p b = true
      · rw [if_pos (by simp [hb])]
        exact Nat.succ_lt_succ (ih h hpa)
      · rw [if_neg (by simpa using hb)]
        exact Nat.lt_succ_of_lt (ih h hpa)

/-- Two tree rows with the same key are the same row when keys are unique. -/
theorem key_unique {tree : List (Path × watchman_pending_fs)}
    (hnd : (tree.map Prod.fst).Nodup) {kv1 kv2 : Path × watchman_pending_fs}
    (h1 : kv1 ∈ tree) (h2 : kv2 ∈ tree) (hk : kv1.1 = kv2.1) : kv1 = kv2 :=
  List.inj_on_of_nodup_map hnd h1 h2 hk

/-- In an aligned state every live entry sits in the tree under its own
path. -/
theorem mem_tree_of_mem_pending {tree : List (Path × watchman_pending_fs)}
    {pending : List watchman_pending_fs}
    (hmap : tree.map Prod.snd = pending)
    (hkey : ∀ kv ∈ tree, kv.1 = kv.2.path) :
    ∀ e ∈ pending, (e.path, e) ∈ tree := by
  intro e he
  rcases List.mem_map.mp (hmap ▸ he) with ⟨kv, hkv, hsnd⟩
  have hk := hkey kv hkv
  have : kv = (e.path, e) := by
    cases kv with
    | mk a b =>
      simp only at hsnd hk
      subst hsnd
      simp [hk]
  exact this ▸ hkv

/-- Filtering the tree by a key-and-entry test and filtering the list by the
matching entry test produce aligned results. -/
theorem map_snd_filter (q : Path × watchman_pending_fs → Bool)
    (q2 : watchman_pending_fs → Bool) :
    ∀ (tree : List (Path × watchman_pending_fs)),
      (∀ kv ∈ tree, q kv = q2 kv.2) →
      (tree.filter q).map Prod.snd = (tree.map Prod.snd).filter q2 := by
  intro tree
  induction tree with
  | nil => intro _; rfl
  | cons kv rest ih =>
    intro hq
    have hq0 : q kv = q2 kv.2 := hq kv (List.mem_cons_self _ _)
    have ih2 := ih (fun x hx => hq x (List.mem_cons_of_mem _ hx))
    cases hqv : q kv with
    | true =>
      have h2 : q2 kv.2 = true := hq0 ▸ hqv
      simp [List.filter_cons, hqv, h2, ih2]
    | false =>
      have h2 : q2 kv.2 = false := hq0 ▸ hqv
      simp [List.filter_cons, hqv, h2, ih2]

/-- Mapping the tree rows and mapping the list entries produce aligned
results when the row function and the entry function agree. -/
theorem map_snd_map (g : Path × watchman_pending_fs → Path × watchman_pending_fs)
    (g2 : watchman_pending_fs → watchman_pending_fs) :
    ∀ (tree : List (Path × watchman_pending_fs)),
      (∀ kv ∈ tree, (g kv).2 = g2 kv.2) →
      (tree.map g).map Prod.snd = (tree.map Prod.snd).map g2 := by
  intro tree
  induction tree with
  | nil => intro _; rfl
  | cons kv rest ih =>
    intro hg
    have hg0 := hg kv (List.mem_cons_self _ _)
    have ih2 := ih (fun x hx => hg x (List.mem_cons_of_mem _ hx))
    simp [hg0, ih2]

/-- A key-preserving row function leaves the key sequence of the tree
unchanged. -/
theorem map_fst_map (g : Path × watchman_pending_fs → Path × watchman_pending_fs) :
    ∀ (tree : List (Path × watchman_pending_fs)),
      (∀ kv ∈ tree, (g kv).1 = kv.1) →
      (tree.map g).map Prod.fst = tree.map Prod.fst := by
  intro tree
  induction tree with
  | nil => intro _; rfl
  | cons kv rest ih =>
    intro hg
    have hg0 := hg kv (List.mem_cons_self _ _)
    have ih2 := ih (fun x hx => hg x (List.mem_cons_of_mem _ hx))
    simp [hg0, ih2]

/-- Exact lookup succeeds on any stored row when keys are unique. -/
theorem treeSearch_eq_some_of_mem {tree : List (Path × watchman_pending_fs)}
    {k : Path} {v : watchman_pending_fs}
    (hnd : (tree.map Prod.fst).Nodup) (hmem : (k, v) ∈ tree) :
    treeSearch tree k = some v := by
  unfold treeSearch
  cases hf : tree.find? (fun kv => kv.1 == k) with
  | none =>
    exfalso
    have := List.find?_eq_none.mp hf (k, v) hmem
    simp at this
  | some kv =>
    have h1 := List.find?_some hf
    have h2 : kv ∈ tree := List.mem_of_find?_eq_some hf
    have h3 : kv = (k, v) := key_unique hnd h2 hmem (by simpa using h1)
    simp [h3]

/-- Exact lookup fails exactly when no row carries the key. -/
theorem treeSearch_eq_none_iff (tree : List (Path × watchman_pending_fs))
    (path : Path) :
    treeSearch tree path = none ↔ ∀ kv ∈ tree, kv.1 ≠ path := by
  unfold treeSearch
  constructor
  · intro h kv hkv
    cases hf : tree.find? (fun kv => kv.1 == path) with
    | none =>
      have := List.find?_eq_none.mp hf kv hkv
      simpa using this
    | some kv2 =>
      rw [hf] at h
      simp at h
  · intro h
    cases hf : tree.find? (fun kv => kv.1 == path) with
    | none => rfl
    | some kv2 =>
      have h1 := List.find?_some hf
      have h2 := List.mem_of_find?_eq_some hf
      exact absurd (by simpa using h1) (h kv2 h2)

/-- The restart loop of the pruning scan computes, in one shot, the filter
dropping every prunable entry: with enough fuel and an aligned tree/list
pair, repeated erase-and-restart equals filtering both views by the pruning
test. -/
theorem pruneLoop_spec (isCookie : Path → Bool) (path : Path) :
    ∀ (fuel : Nat) (tree : List (Path × watchman_pending_fs))
      (pending : List watchman_pending_fs),
      tree.length ≤ fuel →
      tree.map Prod.snd = pending →
      (∀ kv ∈ tree, kv.1 = kv.2.path) →
      (tree.map Prod.fst).Nodup →
      pruneLoop isCookie path fuel tree pending =
        (tree.filter fun kv => !shouldPruneChild isCookie path kv.1 kv.2,
         pending.filter fun e => !shouldPruneChild isCookie path e.path e) := by
  intro fuel
  induction fuel with
  | zero =>
    intro tree pending hlen hmap hkey hnd
    have ht : tree = [] := List.length_eq_zero.mp (Nat.le_zero.mp hlen)
    subst ht
    have hp : pending = [] := by simpa using hmap.symm
    subst hp
    rfl
  | succ n ih =>
    intro tree pending hlen hmap hkey hnd
    cases hf : tree.find? (fun kv => shouldPruneChild isCookie path kv.1 kv.2) with
    | none =>
      have hall := List.find?_eq_none.mp hf
      have htree :
          (tree.filter fun kv => !shouldPruneChild isCookie path kv.1 kv.2) = tree :=
        List.filter_eq_self.mpr fun kv hkv => by simpa using hall kv hkv
      have hpend :
          (pending.filter fun e => !shouldPruneChild isCookie path e.path e) = pending := by
        apply List.filter_eq_self.mpr
        intro e he
        have hmem := mem_tree_of_mem_pending hmap hkey e he
        simpa using hall (e.path, e) hmem
      simp only [pruneLoop, hf, htree, hpend]
    | some kv =>
      have hps := List.find?_some hf
      have hmem : kv ∈ tree := List.mem_of_find?_eq_some hf
      have hlt : (treeErase tree kv.1).length < tree.length :=
        length_filter_lt_of_mem hmem (by simp)
      have hlen2 : (treeErase tree kv.1).length ≤ n :=
        Nat.lt_succ_iff.mp (Nat.lt_of_lt_of_le hlt hlen)
      have hmap2 : (treeErase tree kv.1).map Prod.snd = unlinkItem pending kv.1 := by
        unfold treeErase unlinkItem
        rw [map_snd_filter (fun x => !(x.1 == kv.1)) (fun e => !(e.path == kv.1))
            tree (fun x hx => by simp only [hkey x hx]), hmap]
      have hkey2 : ∀ x ∈ treeErase tree kv.1, x.1 = x.2.path :=
        fun x hx => hkey x (List.mem_of_mem_filter hx)
      have hnd2 : ((treeErase tree kv.1).map Prod.fst).Nodup :=
        List.Nodup.sublist (List.Sublist.map _ (List.filter_sublist _)) hnd
      have hrec := ih (treeErase tree kv.1) (unlinkItem pending kv.1) hlen2 hmap2 hkey2 hnd2
      have ht :
          ((treeErase tree kv.1).filter fun x => !shouldPruneChild isCookie path x.1 x.2) =
            tree.filter fun x => !shouldPruneChild isCookie path x.1 x.2 := by
        unfold treeErase
        rw [List.filter_filter]
        apply List.filter_congr
        intro x hx
        by_cases hxk : x.1 = kv.1
        · have hxkv : x = kv := key_unique hnd hx hmem hxk
          subst hxkv
          simp [hps]
        · simp [hxk]
      have hpend :
          ((unlinkItem pending kv.1).filter fun e => !shouldPruneChild isCookie path e.path e) =
            pending.filter fun e => !shouldPruneChild isCookie path e.path e := by
        unfold unlinkItem
        rw [List.filter_filter]
        apply List.filter_congr
        intro e he
        by_cases hek : e.path = kv.1
        · have hmem2 : (e.path, e) ∈ tree := mem_tree_of_mem_pending hmap hkey e he
          have hkv2 : (e.path, e) = kv := key_unique hnd hmem2 hmem hek
          have h1 : e.path = kv.1 := congrArg Prod.fst hkv2
          have h2 : e = kv.2 := congrArg Prod.snd hkv2
          have hse := hps
          rw [← h1, ← h2] at hse
          simp [hse]
        · simp [hek]
      simp only [pruneLoop, hf, hrec, ht, hpend]

/-- When the flag test fails, maybePruneObsoletedChildren does nothing. -/
theorem maybePrune_not_triggered (isCookie : Path → Bool) (path : Path)
    (flags : Nat) (s : PendingCollectionBase)
    (h : flags &&& (W_PENDING_RECURSIVE ||| W_PENDING_CRAWL_ONLY) ≠
      W_PENDING_RECURSIVE) :
    maybePruneObsoletedChildren isCookie path flags s = s := by
  unfold maybePruneObsoletedChildren
  simp [h]

/-- When the flag test holds, maybePruneObsoletedChildren filters both views
by the pruning test (stated for states satisfying the invariant). -/
theorem maybePrune_triggered (isCookie : Path → Bool) (path : Path)
    (flags : Nat) (s : PendingCollectionBase)
    (htr : flags &&& (W_PENDING_RECURSIVE ||| W_PENDING_CRAWL_ONLY) =
      W_PENDING_RECURSIVE)
    (hgs : GoodState s) :
    maybePruneObsoletedChildren isCookie path flags s =
      { s with
          tree := s.tree.filter fun kv => !shouldPruneChild isCookie path kv.1 kv.2,
          pending := s.pending.filter fun e => !shouldPruneChild isCookie path e.path e } := by
  obtain ⟨hmap, hkey, hnd⟩ := hgs
  unfold maybePruneObsoletedChildren
  rw [if_pos (by simp [htr])]
  rw [pruneLoop_spec isCookie path s.tree.length s.tree s.pending
      (Nat.le_refl _) hmap hkey hnd]

/-- Child pruning preserves the structural invariant. -/
theorem goodState_maybePrune (isCookie : Path → Bool) (path : Path)
    (flags : Nat) (s : PendingCollectionBase) (hgs : GoodState s) :
    GoodState (maybePruneObsoletedChildren isCookie path flags s) := by
  by_cases htr : flags &&& (W_PENDING_RECURSIVE ||| W_PENDING_CRAWL_ONLY) =
      W_PENDING_RECURSIVE
  · rw [maybePrune_triggered isCookie path flags s htr hgs]
    obtain ⟨hmap, hkey, hnd⟩ := hgs
    refine ⟨?_, ?_, ?_⟩
    · rw [map_snd_filter _ (fun e => !shouldPruneChild isCookie path e.path e)
          s.tree (fun kv hkv => by simp only [hkey kv hkv]), hmap]
    · intro kv hkv
      exact hkey kv (List.mem_of_mem_filter hkv)
    · exact List.Nodup.sublist (List.Sublist.map _ (List.filter_sublist _)) hnd
  · rw [maybePrune_not_triggered isCookie path flags s htr]
    exact hgs

/-- Child pruning only ever removes rows from the tree. -/
theorem maybePrune_tree_mem (isCookie : Path → Bool) (path : Path)
    (flags : Nat) (s : PendingCollectionBase) (hgs : GoodState s) :
    ∀ kv ∈ (maybePruneObsoletedChildren isCookie path flags s).tree, kv ∈ s.tree := by
  by_cases htr : flags &&& (W_PENDING_RECURSIVE ||| W_PENDING_CRAWL_ONLY) =
      W_PENDING_RECURSIVE
  · rw [maybePrune_triggered isCookie path flags s htr hgs]
    intro kv hkv
    exact List.mem_of_mem_filter hkv
  · rw [maybePrune_not_triggered isCookie path flags s htr]
    intro kv hkv
    exact hkv

/-- Pushing a fresh entry onto both views preserves the structural
invariant. -/
theorem goodState_cons (s : PendingCollectionBase) (p : watchman_pending_fs)
    (hgs : GoodState s) (hfresh : ∀ kv ∈ s.tree, kv.1 ≠ p.path) :
    GoodState { s with tree := (p.path, p) :: s.tree, pending := p :: s.pending } := by
  obtain ⟨hmap, hkey, hnd⟩ := hgs
  refine ⟨?_, ?_, ?_⟩
  · simp [hmap]
  · intro kv hkv
    rcases List.mem_cons.mp hkv with h | h
    · subst h
      rfl
    · exact hkey kv h
  · simp only [List.map_cons]
    refine List.nodup_cons.mpr ⟨?_, hnd⟩
    intro hin
    rcases List.mem_map.mp hin with ⟨kv, hkv, hfst⟩
    exact hfresh kv hkv hfst

/-- Replacing, in both views at once, the entry stored under a key preserves
the structural invariant (this is the shared-pointer update of
consolidateItem seen through the two views). -/
theorem goodState_replace (s : PendingCollectionBase) (key : Path)
    (q : watchman_pending_fs) (hq : q.path = key) (hgs : GoodState s) :
    GoodState { s with
        tree := s.tree.map fun kv => if kv.1 == key then (kv.1, q) else kv,
        pending := s.pending.map fun e => if e.path == key then q else e } := by
  obtain ⟨hmap, hkey, hnd⟩ := hgs
  refine ⟨?_, ?_, ?_⟩
  · rw [map_snd_map _ (fun e => if e.path == key then q else e) s.tree
        (fun kv hkv => by
          simp only [hkey kv hkv]
          cases hc : (kv.2.path == key) <;> simp [hc]), hmap]
  · intro kv hkv
    rcases List.mem_map.mp hkv with ⟨kv0, hkv0, hg⟩
    subst hg
    by_cases hc : (kv0.1 == key) = true
    · rw [if_pos hc]
      have hc2 : kv0.1 = key := by simpa using hc
      show kv0.1 = q.path
      rw [hc2, hq]
    · rw [if_neg hc]
      exact hkey kv0 hkv0
  · rw [map_fst_map _ s.tree (fun kv hkv => by
      cases hc : (kv.1 == key) <;> simp [hc])]
    exact hnd

/-- Consolidation (the in-place flag upgrade followed by pruning) preserves
the structural invariant. -/
theorem goodState_consolidateItem (isCookie : Path → Bool)
    (p : watchman_pending_fs) (flags : Nat) (s : PendingCollectionBase)
    (hgs : GoodState s) : GoodState (consolidateItem isCookie p flags s) := by
  unfold consolidateItem
  apply goodState_maybePrune
  exact goodState_replace s p.path _ rfl hgs

/-- add preserves the structural invariant. -/
theorem goodState_add (isCookie : Path → Bool) (s : PendingCollectionBase)
    (path : Path) (now : Nat) (flags : Nat) (hgs : GoodState s) :
    GoodState (add isCookie s path now flags) := by
  unfold add
  cases hs : treeSearch s.tree path with
  | some existing => exact goodState_consolidateItem isCookie existing flags s hgs
  | none =>
    by_cases hob : isObsoletedByContainingDir isCookie s path = true
    · rw [if_pos hob]
      exact hgs
    · rw [if_neg hob]
      have hgs2 := goodState_maybePrune isCookie path flags s hgs
      have hfresh : ∀ kv ∈ (maybePruneObsoletedChildren isCookie path flags s).tree,
          kv.1 ≠ path := by
        intro kv hkv
        exact (treeSearch_eq_none_iff s.tree path).mp hs kv
          (maybePrune_tree_mem isCookie path flags s hgs kv hkv)
      exact goodState_cons (maybePruneObsoletedChildren isCookie path flags s)
        { path := path, now := now, flags := flags } hgs2 hfresh

/-- A successful exact lookup returns an entry stored under its own path. -/
theorem treeSearch_some_path {tree : List (Path × watchman_pending_fs)}
    {path : Path} {p : watchman_pending_fs}
    (hkey : ∀ kv ∈ tree, kv.1 = kv.2.path)
    (hs : treeSearch tree path = some p) :
    p.path = path ∧ (path, p) ∈ tree := by
  unfold treeSearch at hs
  cases hf : tree.find? (fun kv => kv.1 == path) with
  | none =>
    rw [hf] at hs
    simp at hs
  | some kv =>
    rw [hf] at hs
    simp at hs
    have h1 := List.find?_some hf
    have h2 := List.mem_of_find?_eq_some hf
    have h3 : kv.1 = path := by simpa using h1
    have h4 : kv.1 = kv.2.path := hkey kv h2
    constructor
    · rw [← hs, ← h4, h3]
    · have h5 : kv = (path, p) := by
        cases kv with
        | mk a b =>
          simp only at h3 hs
          rw [h3, hs]
      exact h5 ▸ h2

/-- Branch equation of add: an exact match routes to consolidateItem. -/
theorem add_eq_consolidate {c : Path → Bool} {s : PendingCollectionBase}
    {path : Path} {now flags : Nat} {p : watchman_pending_fs}
    (hs : treeSearch s.tree path = some p) :
    add c s path now flags = consolidateItem c p flags s := by
  unfold add
  rw [hs]

/-- Branch equation of add: no exact match and an obsoleting recursive
ancestor discards the notification, leaving the state untouched. -/
theorem add_eq_skip {c : Path → Bool} {s : PendingCollectionBase}
    {path : Path} {now flags : Nat}
    (hs : treeSearch s.tree path = none)
    (hob : isObsoletedByContainingDir c s path = true) :
    add c s path now flags = s := by
  unfold add
  rw [hs]
  exact if_pos hob

/-- Branch equation of add: no exact match and no obsoleting ancestor prunes
children and pushes a freshly allocated entry onto both views. -/
theorem add_eq_insert {c : Path → Bool} {s : PendingCollectionBase}
    {path : Path} {now flags : Nat}
    (hs : treeSearch s.tree path = none)
    (hob : isObsoletedByContainingDir c s path = false) :
    add c s path now flags =
      linkHead { path := path, now := now, flags := flags }
        { maybePruneObsoletedChildren c path flags s with
          tree := treeInsert path { path := path, now := now, flags := flags }
            (maybePruneObsoletedChildren c path flags s).tree } := by
  unfold add
  rw [hs]
  rw [if_neg (by simp [hob])]

/-- A tree with unique keys holds exactly one row under a stored key. -/
theorem countP_key_eq_one :
    ∀ {tree : List (Path × watchman_pending_fs)},
      (tree.map Prod.fst).Nodup → ∀ {k : Path} {v : watchman_pending_fs},
      (k, v) ∈ tree → tree.countP (fun kv => kv.1 == k) = 1 := by
  intro tree
  induction tree with
  | nil => intro _ k v hmem; cases hmem
  | cons kv rest ih =>
    intro hnd k v hmem
    simp only [List.map_cons] at hnd
    have hnd0 := List.nodup_cons.mp hnd
    rcases List.mem_cons.mp hmem with h | h
    · have hk : kv.1 = k := by rw [← h]
      rw [List.countP_cons_of_pos _ _ (by simp [hk])]
      have hz : rest.countP (fun kv2 => kv2.1 == k) = 0 := by
        apply List.countP_eq_zero.mpr
        intro x hx
        simp only [beq_iff_eq]
        intro hxk
        exact hnd0.1 (hk ▸ hxk ▸ List.mem_map_of_mem Prod.fst hx)
      rw [hz]
    · have hk : kv.1 ≠ k := by
        intro he
        exact hnd0.1 (he ▸ List.mem_map_of_mem Prod.fst h)
      rw [List.countP_cons_of_neg _ _ (by simp [hk])]
      exact ih hnd0.2 h

/-- Full behaviour of consolidateItem on an entry stored under its own path:
the stored entry keeps its path and timestamp, only its flags grow (by the
incoming flags masked to CRAWL_ONLY, RECURSIVE and IS_DESYNCED), it stays
the unique entry for that path, and the entry count can only shrink, staying
equal when the merged flags do not trigger child pruning. -/
theorem consolidateItem_spec (c : Path → Bool) (s : PendingCollectionBase)
    (p : watchman_pending_fs) (flags : Nat)
    (hgs : GoodState s) (hmem : (p.path, p) ∈ s.tree) :
    treeSearch (consolidateItem c p flags s).tree p.path =
        some { p with flags := p.flags |||
          (flags &&&
            (W_PENDING_CRAWL_ONLY ||| W_PENDING_RECURSIVE ||| W_PENDING_IS_DESYNCED)) } ∧
    (consolidateItem c p flags s).tree.countP (fun kv => kv.1 == p.path) = 1 ∧
    size (consolidateItem c p flags s) ≤ size s ∧
    ((p.flags ||| (flags &&&
        (W_PENDING_CRAWL_ONLY ||| W_PENDING_RECURSIVE ||| W_PENDING_IS_DESYNCED)))
        &&& (W_PENDING_RECURSIVE ||| W_PENDING_CRAWL_ONLY) ≠ W_PENDING_RECURSIVE →
      size (consolidateItem c p flags s) = size s) := by
  have hR : GoodState { s with
      tree := s.tree.map fun kv => if kv.1 == p.path then
        (kv.1, { p with flags := p.flags |||
          (flags &&&
            (W_PENDING_CRAWL_ONLY ||| W_PENDING_RECURSIVE ||| W_PENDING_IS_DESYNCED)) })
        else kv,
      pending := s.pending.map fun e => if e.path == p.path then
        { p with flags := p.flags |||
          (flags &&&
            (W_PENDING_CRAWL_ONLY ||| W_PENDING_RECURSIVE ||| W_PENDING_IS_DESYNCED)) }
        else e } :=
    goodState_replace s p.path _ rfl hgs
  have hmemR : (p.path, { p with flags := p.flags |||
      (flags &&&
        (W_PENDING_CRAWL_ONLY ||| W_PENDING_RECURSIVE ||| W_PENDING_IS_DESYNCED)) }) ∈
      (s.tree.map fun kv => if kv.1 == p.path then
        (kv.1, { p with flags := p.flags |||
          (flags &&&
            (W_PENDING_CRAWL_ONLY ||| W_PENDING_RECURSIVE ||| W_PENDING_IS_DESYNCED)) })
        else kv) :=
    List.mem_map.mpr ⟨(p.path, p), hmem, by simp⟩
  have hgsF : GoodState (consolidateItem c p flags s) :=
    goodState_consolidateItem c p flags s hgs
  have hmemF : (p.path, { p with flags := p.flags |||
      (flags &&&
        (W_PENDING_CRAWL_ONLY ||| W_PENDING_RECURSIVE ||| W_PENDING_IS_DESYNCED)) }) ∈
      (consolidateItem c p flags s).tree := by
    by_cases htr : (p.flags ||| (flags &&&
        (W_PENDING_CRAWL_ONLY ||| W_PENDING_RECURSIVE ||| W_PENDING_IS_DESYNCED)))
        &&& (W_PENDING_RECURSIVE ||| W_PENDING_CRAWL_ONLY) = W_PENDING_RECURSIVE
    · show _ ∈ (maybePruneObsoletedChildren c p.path _ _).tree
      rw [maybePrune_triggered _ _ _ _ htr hR]
      exact List.mem_filter.mpr ⟨hmemR, by simp [shouldPruneChild]⟩
    · show _ ∈ (maybePruneObsoletedChildren c p.path _ _).tree
      rw [maybePrune_not_triggered _ _ _ _ htr]
      exact hmemR
  refine ⟨?_, ?_, ?_, ?_⟩
  · exact treeSearch_eq_some_of_mem hgsF.2.2 hmemF
  · exact countP_key_eq_one hgsF.2.2 hmemF
  · show (maybePruneObsoletedChildren c p.path _ _).tree.length ≤ s.tree.length
    by_cases htr : (p.flags ||| (flags &&&
        (W_PENDING_CRAWL_ONLY ||| W_PENDING_RECURSIVE ||| W_PENDING_IS_DESYNCED)))
        &&& (W_PENDING_RECURSIVE ||| W_PENDING_CRAWL_ONLY) = W_PENDING_RECURSIVE
    · rw [maybePrune_triggered _ _ _ _ htr hR]
      calc (List.filter _ _).length ≤ _ := List.length_filter_le _ _
        _ = s.tree.length := List.length_map _ _
    · rw [maybePrune_not_triggered _ _ _ _ htr]
      exact Nat.le_of_eq (List.length_map _ _)
  · intro htr
    show (maybePruneObsoletedChildren c p.path _ _).tree.length = s.tree.length
    rw [maybePrune_not_triggered _ _ _ _ htr]
    exact List.length_map _ _

/-- Folding add over a chain of entries preserves the structural
invariant. -/
theorem goodState_foldl_add (c : Path → Bool) :
    ∀ (chain : List watchman_pending_fs) (s : PendingCollectionBase),
      GoodState s →
      GoodState (chain.foldl (fun t e => add c t e.path e.now e.flags) s) := by
  intro chain
  induction chain with
  | nil => intro s hgs; exact hgs
  | cons p rest ih =>
    intro s hgs
    rw [List.foldl_cons]
    exact ih _ (goodState_add c s p.path p.now p.flags hgs)

/-- One step of the append loop is exactly an add of the walked entry's
path, timestamp and flags. -/
theorem appendChain_cons (isCookie : Path → Bool) (s : PendingCollectionBase)
    (p : watchman_pending_fs) (rest : List watchman_pending_fs) :
    appendChain isCookie s (p :: rest) =
      appendChain isCookie (add isCookie s p.path p.now p.flags) rest := by
  show (match treeSearch s.tree p.path with
    | some target =>
      appendChain isCookie (consolidateItem isCookie target p.flags s) rest
    | none =>
      if isObsoletedByContainingDir isCookie s p.path then
        appendChain isCookie s rest
      else
        appendChain isCookie
          (linkHead p { maybePruneObsoletedChildren isCookie p.path p.flags s with
            tree := treeInsert p.path p
              (maybePruneObsoletedChildren isCookie p.path p.flags s).tree }) rest) = _
  unfold add
  cases hs : treeSearch s.tree p.path with
  | some target => rfl
  | none =>
    by_cases hob : isObsoletedByContainingDir isCookie s p.path = true
    · rw [if_pos hob, if_pos hob]
    · rw [if_neg hob, if_neg hob]

/-- The append loop is the left fold of add over the stolen chain in list
order. -/
theorem appendChain_eq_foldl (isCookie : Path → Bool) :
    ∀ (chain : List watchman_pending_fs) (s : PendingCollectionBase),
      appendChain isCookie s chain =
        chain.foldl (fun t e => add isCookie t e.path e.now e.flags) s := by
  intro chain
  induction chain with
  | nil => intro s; rfl
  | cons p rest ih =>
    intro s
    rw [List.foldl_cons, appendChain_cons, ih]

/-- C5: for any candidate ancestor P and candidate descendant Q whose first
len(P) bytes agree, the boundary check returns true iff len(P) = len(Q) or
the byte of Q at position len(P) is a path separator; consequently an add of
/ab with RECURSIVE neither obsoletes nor prunes an entry for /a/c, in either
order of arrival. -/
theorem C5_boundary_check :
    (∀ (P Q : Path), P.isPrefixOf Q = true →
      ( is_path_prefix Q P P.length = true ↔
        (P.length = Q.length ∨ is_slash (Q.getD P.length ' ') = true))) ∧
    (∀ (t1 t2 : Nat),
      treeSearch (add (fun _ => false)
          (add (fun _ => false)
            { pending := [], tree := [], pinged := false }
            ['/', 'a', '/', 'c'] t1 W_PENDING_VIA_NOTIFY)
          ['/', 'a', 'b'] t2 W_PENDING_RECURSIVE).tree ['/', 'a', '/', 'c'] =
        some { path := ['/', 'a', '/', 'c'], now := t1,
               flags := W_PENDING_VIA_NOTIFY } ∧
      size (add (fun _ => false)
          (add (fun _ => false)
            { pending := [], tree := [], pinged := false }
            ['/', 'a', '/', 'c'] t1 W_PENDING_VIA_NOTIFY)
          ['/', 'a', 'b'] t2 W_PENDING_RECURSIVE) = 2 ∧
      size (add (fun _ => false)
          (add (fun _ => false)
            { pending := [], tree := [], pinged := false }
            ['/', 'a', 'b'] t1 W_PENDING_RECURSIVE)
          ['/', 'a', '/', 'c'] t2 W_PENDING_VIA_NOTIFY) = 2) := by
  constructor
  · intro P Q hpre
    have hle : P.length ≤ Q.length :=
      (List.isPrefixOf_iff_prefix.mp hpre).length_le
    unfold is_path_prefix
    rw [if_neg (by omega)]
    by_cases he : P.length = Q.length
    · rw [if_pos he]
      simp [he]
    · rw [if_neg he]
      simp [he]
  · intro t1 t2
    exact ⟨rfl, rfl, rfl⟩

/-- Witness for C5: the boundary characterization evaluated at P = /a,
Q = /a/b. -/
theorem C5_boundary_check_witness :
    is_path_prefix ['/', 'a', '/', 'b'] ['/', 'a'] (['/', 'a'] : Path).length = true ↔
      ((['/', 'a'] : Path).length = (['/', 'a', '/', 'b'] : Path).length ∨
        is_slash ((['/', 'a', '/', 'b'] : Path).getD (['/', 'a'] : Path).length ' ') = true) :=
  C5_boundary_check.1 ['/', 'a'] ['/', 'a', '/', 'b'] (by decide)

/-- C7: stealItems hands over the pending chain and leaves the collection
empty - size 0, no list head - and a following checkAndResetPinged reports
false when no ping is outstanding. -/
theorem C7_steal_items (s : PendingCollectionBase) :
    (stealItems s).1 = s.pending ∧
    size (stealItems s).2 = 0 ∧
    (stealItems s).2.pending = [] ∧
    (s.pinged = false → (checkAndResetPinged (stealItems s).2).1 = false) := by
  refine ⟨rfl, rfl, rfl, ?_⟩
  intro hp
  simp [stealItems, checkAndResetPinged, hp]

/-- Witness for C7 at a concrete pinged-free collection. -/
theorem C7_steal_items_witness :
    (checkAndResetPinged (stealItems
      { pending := [{ path := ['/', 'a'], now := 0, flags := 2 }],
        tree := [(['/', 'a'], { path := ['/', 'a'], now := 0, flags := 2 })],
        pinged := false }).2).1 = false :=
  (C7_steal_items _).2.2.2 rfl

/-- C8: append drains its source (list and tree cleared via stealItems) and
re-applies, in the source's original list order, exactly the add logic entry
by entry: the target ends up as the left fold of add over the stolen chain. -/
theorem C8_append_refines_add (c : Path → Bool) (s src : PendingCollectionBase) :
    append c s src =
      (src.pending.foldl (fun t e => add c t e.path e.now e.flags) s,
       { src with pending := [], tree := [] }) := by
  unfold append stealItems
  show (appendChain c s src.pending, { src with pending := [], tree := [] }) =
    (src.pending.foldl (fun t e => add c t e.path e.now e.flags) s,
     { src with pending := [], tree := [] })
  rw [appendChain_eq_foldl]

/-- C9: LIFO list order - a newly inserted entry is pushed at the head of
the list, so adding /x then /y (both fresh) and stealing yields the chain
with the /y entry first and the /x entry second. -/
theorem C9_lifo_order :
    (∀ (c : Path → Bool) (s : PendingCollectionBase) (path : Path)
       (now flags : Nat),
      treeSearch s.tree path = none →
      isObsoletedByContainingDir c s path = false →
      (add c s path now flags).pending =
        { path := path, now := now, flags := flags } ::
          (maybePruneObsoletedChildren c path flags s).pending) ∧
    (∀ (t1 t2 : Nat),
      (stealItems (add (fun _ => false)
          (add (fun _ => false) { pending := [], tree := [], pinged := false }
            ['/', 'x'] t1 W_PENDING_VIA_NOTIFY)
          ['/', 'y'] t2 W_PENDING_VIA_NOTIFY)).1 =
        [{ path := ['/', 'y'], now := t2, flags := W_PENDING_VIA_NOTIFY },
         { path := ['/', 'x'], now := t1, flags := W_PENDING_VIA_NOTIFY }]) := by
  constructor
  · intro c s path now flags hs hob
    rw [add_eq_insert hs hob]
    rfl
  · intro t1 t2
    rfl

/-- C6: when the pending list is non-empty or the pinged flag is set at the
moment lockAndWait takes the lock, it reports wasPinged true at once without
blocking on the condition variable; and checkAndResetPinged reports true
exactly when the list is non-empty or the flag is set, with the flag false
after the call in every case. -/
theorem C6_wake_protocol :
    (∀ (afterWait : PendingCollectionBase → PendingCollectionBase) (t : Int)
       (s : PendingCollectionBase),
      (s.pending ≠ [] ∨ s.pinged = true) →
      lockAndWait afterWait t s = (true, false, { s with pinged := false })) ∧
    (∀ s : PendingCollectionBase,
      ((checkAndResetPinged s).1 = true ↔ (s.pending ≠ [] ∨ s.pinged = true)) ∧
      (checkAndResetPinged s).2.pinged = false) := by
  have hcond : ∀ s : PendingCollectionBase,
      (!s.pending.isEmpty || s.pinged) = true ↔ (s.pending ≠ [] ∨ s.pinged = true) := by
    intro s
    cases hsp : s.pending with
    | nil => simp [hsp]
    | cons a l => simp [hsp]
  constructor
  · intro afterWait t s h
    have hcr : checkAndResetPinged s = (true, { s with pinged := false }) := by
      unfold checkAndResetPinged
      rw [if_pos ((hcond s).mpr h)]
    simp [lockAndWait, hcr]
  · intro s
    constructor
    · by_cases hc : (!s.pending.isEmpty || s.pinged) = true
      · rw [checkAndResetPinged, if_pos hc]
        simpa using (hcond s).mp hc
      · rw [checkAndResetPinged, if_neg hc]
        constructor
        · intro h
          exact absurd h (by simp)
        · intro hcontra
          exact absurd ((hcond s).mpr hcontra) hc
    · by_cases hc : (!s.pending.isEmpty || s.pinged) = true
      · rw [checkAndResetPinged, if_pos hc]
      · rw [checkAndResetPinged, if_neg hc]
        show s.pinged = false
        cases hpv : s.pinged
        · rfl
        · exact absurd (by simp [hpv]) hc

/-- Witness for C6: a pinged but empty collection makes lockAndWait return
immediately. -/
theorem C6_wake_protocol_witness :
    lockAndWait (fun x => x) (-1)
      { pending := [], tree := [], pinged := true } =
      (true, false, { pending := [], tree := [], pinged := false }) :=
  C6_wake_protocol.1 (fun x => x) (-1)
    { pending := [], tree := [], pinged := true } (Or.inr rfl)

/-- C3: with no exact match present, add leaves the collection completely
unchanged precisely when the longest matching ancestor entry is RECURSIVE,
truly contains the path per the boundary check, and the path is not a
cookie; a path the cookie predicate accepts is always inserted and kept. -/
theorem C3_containment_obsoletion (c : Path → Bool)
    (s : PendingCollectionBase) (path : Path) (now flags : Nat)
    (hs : treeSearch s.tree path = none) :
    (add c s path now flags = s ↔
      (∃ key p, longestMatch s.tree path = some (key, p) ∧
        p.flags &&& W_PENDING_RECURSIVE ≠ 0 ∧
        is_path_prefix path key key.length = true ∧
        c path = false)) ∧
    (c path = true →
      treeSearch (add c s path now flags).tree path =
        some { path := path, now := now, flags := flags }) := by
  have hiff : isObsoletedByContainingDir c s path = true ↔
      (∃ key p, longestMatch s.tree path = some (key, p) ∧
        p.flags &&& W_PENDING_RECURSIVE ≠ 0 ∧
        is_path_prefix path key key.length = true ∧
        c path = false) := by
    cases hl : longestMatch s.tree path with
    | none =>
      have heq : isObsoletedByContainingDir c s path = false := by
        unfold isObsoletedByContainingDir
        rw [hl]
      simp [heq]
    | some leaf =>
      have heq : isObsoletedByContainingDir c s path =
          (if (((leaf.2.flags &&& W_PENDING_RECURSIVE) != 0) &&
              is_path_prefix path leaf.1 leaf.1.length) = true then
            (if c path = true then false else true) else false) := by
        unfold isObsoletedByContainingDir
        rw [hl]
      rw [heq]
      constructor
      · intro h
        by_cases h1 : (((leaf.2.flags &&& W_PENDING_RECURSIVE) != 0) &&
            is_path_prefix path leaf.1 leaf.1.length) = true
        · have h1s := h1
          rw [Bool.and_eq_true] at h1s
          obtain ⟨h1a, h1b⟩ := h1s
          have hcp : c path = false := by
            cases hcv : c path
            · rfl
            · rw [if_pos h1, if_pos hcv] at h
              exact absurd h (by simp)
          exact ⟨leaf.1, leaf.2, rfl, by simpa using h1a, h1b, hcp⟩
        · rw [if_neg h1] at h
          exact absurd h (by simp)
      · rintro ⟨key, p, hsome, hrec, hbd, hcp⟩
        have hleaf : leaf = (key, p) := by
          injection hsome with h
        subst hleaf
        rw [if_pos (by
          rw [Bool.and_eq_true]
          exact ⟨by simpa using hrec, hbd⟩)]
        rw [hcp]
        rfl
  constructor
  · constructor
    · intro heq
      apply hiff.mp
      cases hv : isObsoletedByContainingDir c s path with
      | true => rfl
      | false =>
        exfalso
        have hsearch : treeSearch (add c s path now flags).tree path =
            some { path := path, now := now, flags := flags } := by
          rw [add_eq_insert hs hv]
          show treeSearch ((path, _) :: _) path = _
          unfold treeSearch
          rw [List.find?_cons_of_pos _ (by simp)]
          rfl
        rw [heq, hs] at hsearch
        exact Option.noConfusion hsearch
    · intro hex
      exact add_eq_skip hs (hiff.mpr hex)
  · intro hcp
    have hob : isObsoletedByContainingDir c s path = false := by
      cases hl : longestMatch s.tree path with
      | none =>
        unfold isObsoletedByContainingDir
        rw [hl]
      | some leaf =>
        have heq : isObsoletedByContainingDir c s path =
            (if (((leaf.2.flags &&& W_PENDING_RECURSIVE) != 0) &&
                is_path_prefix path leaf.1 leaf.1.length) = true then
              (if c path = true then false else true) else false) := by
          unfold isObsoletedByContainingDir
          rw [hl]
        rw [heq]
        by_cases h1 : (((leaf.2.flags &&& W_PENDING_RECURSIVE) != 0) &&
            is_path_prefix path leaf.1 leaf.1.length) = true
        · rw [if_pos h1, if_pos hcp]
        · rw [if_neg h1]
    rw [add_eq_insert hs hob]
    show treeSearch ((path, _) :: _) path = _
    unfold treeSearch
    rw [List.find?_cons_of_pos _ (by simp)]
    rfl

/-- Witness for C3: the cookie-exemption branch evaluated with /a pending
RECURSIVE and a cookie path below it. -/
theorem C3_containment_obsoletion_witness :
    treeSearch (add (fun q => q == ['/', 'a', '/', '.', 'c'])
        (add (fun q => q == ['/', 'a', '/', '.', 'c'])
          { pending := [], tree := [], pinged := false }
          ['/', 'a'] 0 W_PENDING_RECURSIVE)
        ['/', 'a', '/', '.', 'c'] 1 W_PENDING_VIA_NOTIFY).tree
      ['/', 'a', '/', '.', 'c'] =
      some { path := ['/', 'a', '/', '.', 'c'], now := 1,
             flags := W_PENDING_VIA_NOTIFY } :=
  (C3_containment_obsoletion (fun q => q == ['/', 'a', '/', '.', 'c'])
    (add (fun q => q == ['/', 'a', '/', '.', 'c'])
      { pending := [], tree := [], pinged := false }
      ['/', 'a'] 0 W_PENDING_RECURSIVE)
    ['/', 'a', '/', '.', 'c'] 1 W_PENDING_VIA_NOTIFY (by decide)).2 (by decide)

/-- C1 (amended): a second add for an already-pending path consolidates -
afterwards there is still exactly one entry for the path, its flags are the
old flags OR the new flags masked to CRAWL_ONLY, RECURSIVE and IS_DESYNCED
(VIA_NOTIFY is never OR-ed in), and size() never grows, staying unchanged
whenever the merged flags do not trigger child pruning. -/
theorem C1_consolidation (c : Path → Bool) (s : PendingCollectionBase)
    (path : Path) (now flags : Nat) (p : watchman_pending_fs)
    (hgs : GoodState s) (hs : treeSearch s.tree path = some p) :
    treeSearch (add c s path now flags).tree path =
        some { p with flags := p.flags |||
          (flags &&&
            (W_PENDING_CRAWL_ONLY ||| W_PENDING_RECURSIVE ||| W_PENDING_IS_DESYNCED)) } ∧
    (add c s path now flags).tree.countP (fun kv => kv.1 == path) = 1 ∧
    size (add c s path now flags) ≤ size s ∧
    ((p.flags ||| (flags &&&
        (W_PENDING_CRAWL_ONLY ||| W_PENDING_RECURSIVE ||| W_PENDING_IS_DESYNCED)))
        &&& (W_PENDING_RECURSIVE ||| W_PENDING_CRAWL_ONLY) ≠ W_PENDING_RECURSIVE →
      size (add c s path now flags) = size s) := by
  obtain ⟨hpp, hmem⟩ := treeSearch_some_path hgs.2.1 hs
  subst hpp
  rw [add_eq_consolidate hs]
  exact consolidateItem_spec c s p flags hgs hmem

/-- Witness for C1 at the consolidation example of the spec: /a/b pending
VIA_NOTIFY, then added again with RECURSIVE. -/
theorem C1_consolidation_witness :
    treeSearch (add (fun _ => false)
        (add (fun _ => false) { pending := [], tree := [], pinged := false }
          ['/', 'a', '/', 'b'] 0 W_PENDING_VIA_NOTIFY)
        ['/', 'a', '/', 'b'] 1 W_PENDING_RECURSIVE).tree ['/', 'a', '/', 'b'] =
      some { path := ['/', 'a', '/', 'b'], now := 0,
             flags := W_PENDING_VIA_NOTIFY |||
               (W_PENDING_RECURSIVE &&&
                 (W_PENDING_CRAWL_ONLY ||| W_PENDING_RECURSIVE ||| W_PENDING_IS_DESYNCED)) } :=
  (C1_consolidation (fun _ => false)
    (add (fun _ => false) { pending := [], tree := [], pinged := false }
      ['/', 'a', '/', 'b'] 0 W_PENDING_VIA_NOTIFY)
    ['/', 'a', '/', 'b'] 1 W_PENDING_RECURSIVE
    { path := ['/', 'a', '/', 'b'], now := 0, flags := W_PENDING_VIA_NOTIFY }
    (by refine ⟨?_, ?_, ?_⟩ <;> decide) (by decide)).1

/-- Counterexample for C1 as frozen: consolidating /a (pending CRAWL_ONLY)
with VIA_NOTIFY leaves flags CRAWL_ONLY, not CRAWL_ONLY | VIA_NOTIFY,
because consolidation masks VIA_NOTIFY out; and a second add of /a (pending
VIA_NOTIFY, with /a/b also pending) carrying RECURSIVE drops size() from 2
to 1 by pruning the child, so size is not always unaffected. -/
theorem C1_consolidation_counterexample :
    (treeSearch (add (fun _ => false)
        (add (fun _ => false) { pending := [], tree := [], pinged := false }
          ['/', 'a'] 0 W_PENDING_CRAWL_ONLY)
        ['/', 'a'] 1 W_PENDING_VIA_NOTIFY).tree ['/', 'a'] =
      some { path := ['/', 'a'], now := 0, flags := W_PENDING_CRAWL_ONLY }) ∧
    W_PENDING_CRAWL_ONLY ≠ W_PENDING_CRAWL_ONLY ||| W_PENDING_VIA_NOTIFY ∧
    size (add (fun _ => false)
      (add (fun _ => false) { pending := [], tree := [], pinged := false }
        ['/', 'a'] 0 W_PENDING_VIA_NOTIFY)
      ['/', 'a', '/', 'b'] 1 W_PENDING_VIA_NOTIFY) = 2 ∧
    size (add (fun _ => false)
      (add (fun _ => false)
        (add (fun _ => false) { pending := [], tree := [], pinged := false }
          ['/', 'a'] 0 W_PENDING_VIA_NOTIFY)
        ['/', 'a', '/', 'b'] 1 W_PENDING_VIA_NOTIFY)
      ['/', 'a'] 2 W_PENDING_RECURSIVE) = 1 := by
  refine ⟨by decide, by decide, by decide, by decide⟩

/-- C10: consolidation never changes the stored entry's path or timestamp -
when add finds an exact match, the entry found afterwards under that path
differs from the old one at most in its flags (the timestamp argument of the
second add is discarded); the same holds for consolidateItem itself, which
is the routine append uses on exact matches. -/
theorem C10_consolidation_frame (c : Path → Bool) (s : PendingCollectionBase)
    (path : Path) (now flags : Nat) (p : watchman_pending_fs)
    (hgs : GoodState s) (hs : treeSearch s.tree path = some p) :
    (∃ q, treeSearch (add c s path now flags).tree path = some q ∧
      q.path = p.path ∧ q.now = p.now ∧
      q.flags = p.flags |||
        (flags &&&
          (W_PENDING_CRAWL_ONLY ||| W_PENDING_RECURSIVE ||| W_PENDING_IS_DESYNCED))) ∧
    (∃ q, treeSearch (consolidateItem c p flags s).tree p.path = some q ∧
      q.path = p.path ∧ q.now = p.now ∧
      q.flags = p.flags |||
        (flags &&&
          (W_PENDING_CRAWL_ONLY ||| W_PENDING_RECURSIVE ||| W_PENDING_IS_DESYNCED))) := by
  obtain ⟨hpp, hmem⟩ := treeSearch_some_path hgs.2.1 hs
  subst hpp
  rw [add_eq_consolidate hs]
  have h1 := (consolidateItem_spec c s p flags hgs hmem).1
  exact ⟨⟨_, h1, rfl, rfl, rfl⟩, ⟨_, h1, rfl, rfl, rfl⟩⟩

/-- Witness for C10 at the consolidation example of the spec. -/
theorem C10_consolidation_frame_witness :
    ∃ q, treeSearch (add (fun _ => false)
        (add (fun _ => false) { pending := [], tree := [], pinged := false }
          ['/', 'a', '/', 'b'] 0 W_PENDING_VIA_NOTIFY)
        ['/', 'a', '/', 'b'] 5 W_PENDING_RECURSIVE).tree ['/', 'a', '/', 'b'] =
        some q ∧
      q.path = ['/', 'a', '/', 'b'] ∧ q.now = 0 ∧
      q.flags = W_PENDING_VIA_NOTIFY |||
        (W_PENDING_RECURSIVE &&&
          (W_PENDING_CRAWL_ONLY ||| W_PENDING_RECURSIVE ||| W_PENDING_IS_DESYNCED)) :=
  (C10_consolidation_frame (fun _ => false)
    (add (fun _ => false) { pending := [], tree := [], pinged := false }
      ['/', 'a', '/', 'b'] 0 W_PENDING_VIA_NOTIFY)
    ['/', 'a', '/', 'b'] 5 W_PENDING_RECURSIVE
    { path := ['/', 'a', '/', 'b'], now := 0, flags := W_PENDING_VIA_NOTIFY }
    (by refine ⟨?_, ?_, ?_⟩ <;> decide) (by decide)).1

/-- C2: child pruning fires exactly when the effective flags satisfy
flags AND (RECURSIVE|CRAWL_ONLY) = RECURSIVE; it removes exactly the
pre-existing entries whose flags lack CRAWL_ONLY, whose key is strictly
longer than the added path, which are true descendants per the boundary
check and not cookies (the repeated scan-and-restart equals one filter);
and when add returns - through the insert branch or the consolidation
branch - no such descendant remains in the tree or the list. -/
theorem C2_child_pruning (c : Path → Bool) (s : PendingCollectionBase)
    (path : Path) (now flags : Nat) (p : watchman_pending_fs) :
    (flags &&& (W_PENDING_RECURSIVE ||| W_PENDING_CRAWL_ONLY) ≠
        W_PENDING_RECURSIVE →
      maybePruneObsoletedChildren c path flags s = s) ∧
    (GoodState s →
      flags &&& (W_PENDING_RECURSIVE ||| W_PENDING_CRAWL_ONLY) =
        W_PENDING_RECURSIVE →
      maybePruneObsoletedChildren c path flags s =
        { s with
            tree := s.tree.filter fun kv => !shouldPruneChild c path kv.1 kv.2,
            pending := s.pending.filter fun e => !shouldPruneChild c path e.path e }) ∧
    (GoodState s → treeSearch s.tree path = none →
      isObsoletedByContainingDir c s path = false →
      flags &&& (W_PENDING_RECURSIVE ||| W_PENDING_CRAWL_ONLY) =
        W_PENDING_RECURSIVE →
      (∀ kv ∈ (add c s path now flags).tree,
        shouldPruneChild c path kv.1 kv.2 = false) ∧
      (∀ e ∈ (add c s path now flags).pending,
        shouldPruneChild c path e.path e = false)) ∧
    (GoodState s → treeSearch s.tree path = some p →
      (p.flags ||| (flags &&&
          (W_PENDING_CRAWL_ONLY ||| W_PENDING_RECURSIVE ||| W_PENDING_IS_DESYNCED)))
          &&& (W_PENDING_RECURSIVE ||| W_PENDING_CRAWL_ONLY) =
        W_PENDING_RECURSIVE →
      ∀ kv ∈ (add c s path now flags).tree,
        shouldPruneChild c path kv.1 kv.2 = false) := by
  have hself : ∀ q : watchman_pending_fs, shouldPruneChild c path path q = false := by
    intro q
    unfold shouldPruneChild
    simp
  refine ⟨?_, ?_, ?_, ?_⟩
  · intro htr
    exact maybePrune_not_triggered c path flags s htr
  · intro hgs htr
    exact maybePrune_triggered c path flags s htr hgs
  · intro hgs hs hob htr
    rw [add_eq_insert hs hob, maybePrune_triggered c path flags s htr hgs]
    constructor
    · intro kv hkv
      rcases List.mem_cons.mp hkv with h | h
      · rw [h]
        exact hself _
      · simpa using List.of_mem_filter h
    · intro e he
      rcases List.mem_cons.mp he with h | h
      · rw [h]
        exact hself _
      · simpa using List.of_mem_filter h
  · intro hgs hs htrm
    obtain ⟨hpp, hmem⟩ := treeSearch_some_path hgs.2.1 hs
    subst hpp
    rw [add_eq_consolidate hs]
    have hR := goodState_replace s p.path
      ({ p with flags := p.flags ||| (flags &&&
        (W_PENDING_CRAWL_ONLY ||| W_PENDING_RECURSIVE ||| W_PENDING_IS_DESYNCED)) })
      rfl hgs
    have hmp : (consolidateItem c p flags s).tree =
        (s.tree.map fun kv => if kv.1 == p.path then
          (kv.1, { p with flags := p.flags ||| (flags &&&
            (W_PENDING_CRAWL_ONLY ||| W_PENDING_RECURSIVE ||| W_PENDING_IS_DESYNCED)) })
          else kv).filter
          (fun x => !shouldPruneChild c p.path x.1 x.2) := by
      show (maybePruneObsoletedChildren c p.path
        (p.flags ||| (flags &&&
          (W_PENDING_CRAWL_ONLY ||| W_PENDING_RECURSIVE ||| W_PENDING_IS_DESYNCED)))
        _).tree = _
      rw [maybePrune_triggered _ _ _ _ htrm hR]
    intro kv hkv
    rw [hmp] at hkv
    simpa using List.of_mem_filter hkv

/-- Witness for C2: the pruning filter evaluated at the reverse-containment
example - /a/b pending VIA_NOTIFY, then /a arriving with RECURSIVE. -/
theorem C2_child_pruning_witness :
    maybePruneObsoletedChildren (fun _ => false) ['/', 'a'] W_PENDING_RECURSIVE
      (add (fun _ => false) { pending := [], tree := [], pinged := false }
        ['/', 'a', '/', 'b'] 0 W_PENDING_VIA_NOTIFY) =
      { add (fun _ => false) { pending := [], tree := [], pinged := false }
          ['/', 'a', '/', 'b'] 0 W_PENDING_VIA_NOTIFY with
        tree := (add (fun _ => false) { pending := [], tree := [], pinged := false }
          ['/', 'a', '/', 'b'] 0 W_PENDING_VIA_NOTIFY).tree.filter
            fun kv => !shouldPruneChild (fun _ => false) ['/', 'a'] kv.1 kv.2,
        pending := (add (fun _ => false) { pending := [], tree := [], pinged := false }
          ['/', 'a', '/', 'b'] 0 W_PENDING_VIA_NOTIFY).pending.filter
            fun e => !shouldPruneChild (fun _ => false) ['/', 'a'] e.path e } :=
  (C2_child_pruning (fun _ => false)
    (add (fun _ => false) { pending := [], tree := [], pinged := false }
      ['/', 'a', '/', 'b'] 0 W_PENDING_VIA_NOTIFY)
    ['/', 'a'] 0 W_PENDING_RECURSIVE
    { path := [], now := 0, flags := 0 }).2.1
    (by refine ⟨?_, ?_, ?_⟩ <;> decide) (by decide)

/-- C4: after add, append, stealItems and drain the tree and the list still
hold exactly the same entries, each tree row keyed by its own entry's path,
and size() - which only reads the tree - equals the length of the list. -/
theorem C4_index_list_agreement (c : Path → Bool) (s src : PendingCollectionBase)
    (path : Path) (now flags : Nat)
    (hgs : GoodState s) (hsrc : GoodState src) :
    GoodState (add c s path now flags) ∧
    GoodState (append c s src).1 ∧
    GoodState (append c s src).2 ∧
    GoodState (stealItems s).2 ∧
    GoodState (drain s) ∧
    size s = s.pending.length := by
  refine ⟨goodState_add c s path now flags hgs, ?_, ?_, ?_, ?_, ?_⟩
  · show GoodState (appendChain c s src.pending)
    rw [appendChain_eq_foldl]
    exact goodState_foldl_add c src.pending s hgs
  · exact ⟨rfl, fun kv h => absurd h (List.not_mem_nil kv), List.nodup_nil⟩
  · exact ⟨rfl, fun kv h => absurd h (List.not_mem_nil kv), List.nodup_nil⟩
  · exact ⟨rfl, fun kv h => absurd h (List.not_mem_nil kv), List.nodup_nil⟩
  · show s.tree.length = s.pending.length
    rw [← hgs.1, List.length_map]

/-- Witness for C4 on the empty collection and a fresh add. -/
theorem C4_index_list_agreement_witness :
    GoodState (add (fun _ => false) { pending := [], tree := [], pinged := false }
      ['/', 'a'] 0 W_PENDING_VIA_NOTIFY) :=
  (C4_index_list_agreement (fun _ => false)
    { pending := [], tree := [], pinged := false }
    { pending := [], tree := [], pinged := false }
    ['/', 'a'] 0 W_PENDING_VIA_NOTIFY
    ⟨rfl, fun kv h => absurd h (List.not_mem_nil kv), List.nodup_nil⟩
    ⟨rfl, fun kv h => absurd h (List.not_mem_nil kv), List.nodup_nil⟩).1

/-- Witness for C9: the head-insertion fact evaluated on the empty
collection. -/
theorem C9_lifo_order_witness :
    (add (fun _ => false) { pending := [], tree := [], pinged := false }
      ['/', 'x'] 0 W_PENDING_VIA_NOTIFY).pending =
      [{ path := ['/', 'x'], now := 0, flags := W_PENDING_VIA_NOTIFY }] :=
  (C9_lifo_order.1 (fun _ => false)
    { pending := [], tree := [], pinged := false }
    ['/', 'x'] 0 W_PENDING_VIA_NOTIFY rfl rfl).trans rfl

end Watchman
